import Mathlib

/-!
Verification of the YouTube view-statistics dashboard (`src/main.py`).

The file shallowly embeds the network-facing core of the program:
the channel resolver `extract_channel_id`, the two pagination
functions `get_all_video_ids` / `get_last_n_video_ids`, the batched
statistics fetcher `get_videos_statistics`, and the pure series-building
fragment of `handle_worker_finished` (called `buildSeries`, after the
specification's name for it).

Remote calls are modelled as oracles indexed by a call counter, so that
transient faults (SSL errors) and other remote failures can be injected
per call; loops that depend on server answers are fuel-indexed.
Python string operations (`in`, `split`, `rstrip`) are modelled by
executable recursive functions on `List Char` with the same semantics.
-/

namespace YTDash

/-! ## Python string primitives -/

/-- Python `sub == s[:len(sub)]`, i.e. `s.startswith(sub)`: boolean
sequence-prefix test on character lists. -/
def pyPre : List Char → List Char → Bool
  | [], _ => true
  | _ :: _, [] => false
  | a :: as, b :: bs => a == b && pyPre as bs

/-- Python `sub in s`: substring containment on character lists. -/
def pyIn (sub : List Char) : List Char → Bool
  | [] => sub.isEmpty
  | c :: rest => pyPre sub (c :: rest) || pyIn sub rest

/-- Python `s.split(sep)` for a non-empty separator `sep`: the list of
fragments between non-overlapping left-to-right occurrences of `sep`.
(The program only ever splits on non-empty literal separators.) -/
def pySplit (sep : List Char) : List Char → List (List Char)
  | [] => [[]]
  | c :: rest =>
    if sep ≠ [] ∧ pyPre sep (c :: rest) then
      [] :: pySplit sep ((c :: rest).drop sep.length)
    else
      match pySplit sep rest with
      | [] => [[c]]
      | p :: ps => (c :: p) :: ps
termination_by s => s.length
decreasing_by
  · simp only [List.length_drop, List.length_cons]
    rename_i h
    have hsep : 1 ≤ sep.length := by
      cases sep with
      | nil => exact absurd rfl h.1
      | cons x xs => simp
    omega
  · simp

/-- Python `lst[-1]` on the (always non-empty) result of `split`. -/
def pyLast (ls : List (List Char)) : List Char := ls.getLastD []

/-- Python `lst[0]` on the (always non-empty) result of `split`. -/
def pyHead (ls : List (List Char)) : List Char := ls.headD []

/-- Python `s.rstrip(c)`: remove trailing copies of `c`. -/
def pyRstrip (c : Char) (s : List Char) : List Char :=
  ((s.reverse.dropWhile (· = c))).reverse

/-! ## Channel resolver (`extract_channel_id`, src/main.py lines 56-116)

The remote service is abstracted by two oracles: `channels.list`
with `forUsername` (returning the ids of the matched channels, `[]`
when the response has no items) and `search.list` restricted to
channels (returning the channel ids of the search results). -/

structure ResolverAPI where
  channelsByUsername : String → List String
  searchChannelIds : String → List String

inductive ExtractErr
  | channelNotFound
  | invalidFormat
deriving DecidableEq, Repr

def sepChannel : List Char := ['/', 'c', 'h', 'a', 'n', 'n', 'e', 'l', '/']
def sepUser : List Char := ['/', 'u', 's', 'e', 'r', '/']
def sepC : List Char := ['/', 'c', '/']
def sepAt : List Char := ['/', '@']
def slash : List Char := ['/']

/-- Embedding of `extract_channel_id(youtube, url)`.  Returns the
resolution outcome together with the number of remote calls issued.

Mirrors the source line by line:
`if '/channel/' in url` → id is `url.split('/channel/')[-1].split('/')[0]`,
no call; `elif '/user/' in url or '/c/' in url` → `forUsername` lookup on
`url.rstrip('/').split('/')[-1]`, falling back to a channel search; `elif
'/@' in url` → channel search on the trailing segment; otherwise a
`ValueError` for an invalid URL format. -/
def extract_channel_id (yt : ResolverAPI) (url : String) :
    Except ExtractErr String × Nat :=
  let u := url.data
  if pyIn sepChannel u then
    (Except.ok (String.mk (pyHead (pySplit slash (pyLast (pySplit sepChannel u))))), 0)
  else if pyIn sepUser u || pyIn sepC u then
    let username := String.mk (pyLast (pySplit slash (pyRstrip '/' u)))
    match yt.channelsByUsername username with
    | id₀ :: _ => (Except.ok id₀, 1)
    | [] =>
      match yt.searchChannelIds username with
      | cid :: _ => (Except.ok cid, 2)
      | [] => (Except.error ExtractErr.channelNotFound, 2)
  else if pyIn sepAt u then
    let handle := String.mk (pyLast (pySplit slash (pyRstrip '/' u)))
    match yt.searchChannelIds handle with
    | cid :: _ => (Except.ok cid, 1)
    | [] => (Except.error ExtractErr.channelNotFound, 1)
  else
    (Except.error ExtractErr.invalidFormat, 0)

/-! ## Pagination (`get_all_video_ids` lines 139-178,
`get_last_n_video_ids` lines 181-222)

A page request carries `maxResults` and the opaque continuation token
(`None` on the first request).  Tokens are modelled as playlist offsets,
which is all the well-behaved server below ever puts in them.  The remote
side is an oracle from the call counter and the request to an outcome:
an SSL error, some other error, or a response.  The loops are fuel-indexed
(`none` in the first component means the fuel ran out, which never happens
in the theorems below); the second component is the trace of requests
issued, in order. -/

inductive Exc
  | ssl
  | remote
deriving DecidableEq, Repr

structure PageReq where
  maxResults : Nat
  pageToken : Option Nat
deriving DecidableEq, Repr

structure PageResponse where
  items : Option (List String)
  nextPageToken : Option Nat
deriving DecidableEq, Repr

inductive PageOutcome
  | ssl
  | err
  | ok (resp : PageResponse)
deriving DecidableEq, Repr

/-- Loop body of `get_all_video_ids`: state is the accumulated ids, the
current continuation token, the remaining retry budget (initialised to 3
once, before the loop), and the call counter. -/
def getAllGo (api : Nat → PageReq → PageOutcome) :
    Nat → List String → Option Nat → Nat → Nat → List PageReq →
    Option (Except Exc (List String)) × List PageReq
  | 0, _, _, _, _, tr => (none, tr)
  | fuel + 1, ids, tok, retries, k, tr =>
    let req : PageReq := ⟨50, tok⟩
    match api k req with
    | PageOutcome.ssl =>
      let r' := retries - 1
      if 0 < r' then getAllGo api fuel ids tok r' (k + 1) (tr ++ [req])
      else (some (Except.error Exc.ssl), tr ++ [req])
    | PageOutcome.err => (some (Except.error Exc.remote), tr ++ [req])
    | PageOutcome.ok resp =>
      match resp.items with
      | none => (some (Except.ok ids), tr ++ [req])
      | some its =>
        let ids' := ids ++ its
        match resp.nextPageToken with
        | none => (some (Except.ok ids'), tr ++ [req])
        | some t => getAllGo api fuel ids' (some t) retries (k + 1) (tr ++ [req])

/-- Embedding of `get_all_video_ids(youtube, uploads_playlist_id)`. -/
def get_all_video_ids (api : Nat → PageReq → PageOutcome) (fuel : Nat) :
    Option (Except Exc (List String)) × List PageReq :=
  getAllGo api fuel [] none 3 0 []

/-- The inner `for item in response['items']` of `get_last_n_video_ids`:
append one id at a time, breaking out as soon as `len(video_ids) == n`. -/
def appendUpTo (n : Nat) : List String → List String → List String
  | ids, [] => ids
  | ids, x :: xs =>
    let ids' := ids ++ [x]
    if ids'.length = n then ids' else appendUpTo n ids' xs

/-- Loop body of `get_last_n_video_ids`: as `getAllGo` but guarded by
`len(video_ids) < n`, requesting `min(n - len(video_ids), 50)` per page. -/
def getLastNGo (api : Nat → PageReq → PageOutcome) (n : Nat) :
    Nat → List String → Option Nat → Nat → Nat → List PageReq →
    Option (Except Exc (List String)) × List PageReq
  | 0, _, _, _, _, tr => (none, tr)
  | fuel + 1, ids, tok, retries, k, tr =>
    if ids.length < n then
      let req : PageReq := ⟨min (n - ids.length) 50, tok⟩
      match api k req with
      | PageOutcome.ssl =>
        let r' := retries - 1
        if 0 < r' then getLastNGo api n fuel ids tok r' (k + 1) (tr ++ [req])
        else (some (Except.error Exc.ssl), tr ++ [req])
      | PageOutcome.err => (some (Except.error Exc.remote), tr ++ [req])
      | PageOutcome.ok resp =>
        match resp.items with
        | none => (some (Except.ok ids), tr ++ [req])
        | some its =>
          let ids' := appendUpTo n ids its
          match resp.nextPageToken with
          | none => (some (Except.ok ids'), tr ++ [req])
          | some t => getLastNGo api n fuel ids' (some t) retries (k + 1) (tr ++ [req])
    else (some (Except.ok ids), tr)

/-- Embedding of `get_last_n_video_ids(youtube, uploads_playlist_id, n)`. -/
def get_last_n_video_ids (api : Nat → PageReq → PageOutcome) (n fuel : Nat) :
    Option (Except Exc (List String)) × List PageReq :=
  getLastNGo api n fuel [] none 3 0 []

/-- The well-behaved playlist server for a playlist `p`: a request at
token (offset) `s` is answered with the next `maxResults` ids and a
continuation token exactly when items remain. -/
def playlistServer (p : List String) (req : PageReq) : PageResponse :=
  let s := (req.pageToken).getD 0
  let its := (p.drop s).take req.maxResults
  { items := some its
    nextPageToken := if s + its.length < p.length then some (s + its.length) else none }

/-- Fault-injecting playlist API: calls whose index lies in `faults`
fail with an SSL error, all others are answered by `playlistServer`. -/
def faultApi (p : List String) (faults : Finset ℕ) (k : Nat) (req : PageReq) :
    PageOutcome :=
  if k ∈ faults then PageOutcome.ssl else PageOutcome.ok (playlistServer p req)

/-! ## Batched statistics (`get_videos_statistics`, lines 225-288) -/

/-- One parsed element of a `videos.list` response: `statistics.viewCount`
may be missing (the code defaults it to 0) and `publishedAt` is the raw
upload timestamp.  The timestamp and timezone are carried in parsed form:
`epoch` is the UTC instant and `tz` the offset annotation, if any. -/
structure PyDateTime where
  epoch : Int
  tz : Option Int
deriving DecidableEq, Repr

structure StatItem where
  id : String
  viewCount : Option Nat
  publishedAt : PyDateTime
  title : String
deriving DecidableEq, Repr

structure StatsResponse where
  items : Option (List StatItem)
deriving DecidableEq, Repr

inductive BatchOutcome
  | ssl
  | err
  | ok (resp : StatsResponse)

/-- A collected video record (the dict appended to `statistics`). -/
structure Record where
  video_id : String
  title : String
  view_count : Nat
  upload_date : PyDateTime
deriving DecidableEq, Repr

/-- `for item in response['items']: statistics.append({...})`; a response
without an `items` key contributes nothing. -/
def parseItems (resp : StatsResponse) : List Record :=
  (resp.items.getD []).map fun it =>
    ⟨it.id, it.title, it.viewCount.getD 0, it.publishedAt⟩

/-- The slicing loop `for i in range(0, len(video_ids), 50)`: consecutive
chunks of at most 50 ids, in input order. -/
def chunks50 : List String → List (List String)
  | [] => []
  | l@(_ :: _) => l.take 50 :: chunks50 (l.drop 50)
termination_by l => l.length
decreasing_by subst l; simp; omega

/-- The `while retries > 0` retry loop of `get_videos_statistics`, entered
after a first SSL failure with `retries = 3`.  Returns the batch's records
(`ok`, empty when a non-SSL error aborted the batch), or the propagated
SSL error after the budget is spent, together with the next call counter
and the requests issued. -/
def statsRetry (api : Nat → List String → BatchOutcome) (b : List String) :
    Nat → Nat → Except Exc (List Record) × Nat × List (List String)
  | k, 0 => (Except.ok [], k, [])
  | k, r + 1 =>
    match api k b with
    | BatchOutcome.ok resp => (Except.ok (parseItems resp), k + 1, [b])
    | BatchOutcome.err => (Except.ok [], k + 1, [b])
    | BatchOutcome.ssl =>
      if r = 0 then (Except.error Exc.ssl, k + 1, [b])
      else
        match statsRetry api b (k + 1) r with
        | (res, k', tr) => (res, k', b :: tr)

/-- The batch loop of `get_videos_statistics`: a successful call appends
the batch's records; a non-SSL error skips the batch (`continue`); an SSL
error enters the retry loop, whose SSL exhaustion aborts the whole
aggregation. -/
def statsGo (api : Nat → List String → BatchOutcome) :
    List (List String) → Nat → List Record → List (List String) →
    Except Exc (List Record) × List (List String)
  | [], _, acc, tr => (Except.ok acc, tr)
  | b :: bs, k, acc, tr =>
    match api k b with
    | BatchOutcome.ok resp => statsGo api bs (k + 1) (acc ++ parseItems resp) (tr ++ [b])
    | BatchOutcome.err => statsGo api bs (k + 1) acc (tr ++ [b])
    | BatchOutcome.ssl =>
      match statsRetry api b (k + 1) 3 with
      | (Except.error e, _, rtr) => (Except.error e, tr ++ [b] ++ rtr)
      | (Except.ok recs, k', rtr) => statsGo api bs k' (acc ++ recs) (tr ++ [b] ++ rtr)

/-- Embedding of `get_videos_statistics(youtube, video_ids)`: the result
(list of records, or the propagated exception) and the trace of batch id
lists sent, one per remote call. -/
def get_videos_statistics (api : Nat → List String → BatchOutcome)
    (video_ids : List String) : Except Exc (List Record) × List (List String) :=
  statsGo api (chunks50 video_ids) 0 [] []

/-! ## Series builder (the pure fragment of `handle_worker_finished`,
lines 556-568)

`pd.to_datetime` followed by `dt.tz_convert(None)` keeps the UTC instant
and drops the timezone annotation; `df.sort_values('upload_date')` sorts
the rows ascending by that instant; `rolling(window=w).mean()` with
`w = max(1, len(df) // 10)` yields, at each 0-indexed position `i`, the
mean of the window ending at `i` once `i + 1 ≥ w`, and no value (`NaN`,
here `none`) before that.  Averages are modelled in `ℚ`. -/

/-- `pd.to_datetime` + `tz_convert(None)`: keep the UTC instant, drop the
timezone annotation. -/
def normalizeDate (d : PyDateTime) : PyDateTime := ⟨d.epoch, none⟩

def normalizeRecord (r : Record) : Record :=
  { r with upload_date := normalizeDate r.upload_date }

/-- Row order produced by `df.sort_values('upload_date')`. -/
def dateLe (a b : Record) : Prop :=
  a.upload_date.epoch ≤ b.upload_date.epoch

instance : DecidableRel dateLe := fun a b => by
  unfold dateLe; infer_instance

instance : IsTotal Record dateLe :=
  ⟨fun a b => Int.le_total a.upload_date.epoch b.upload_date.epoch⟩

instance : IsTrans Record dateLe :=
  ⟨fun _ _ _ hab hbc => le_trans hab hbc⟩

/-- `rolling(window=w).mean()` over the view counts `vs`: position `i`
carries the mean of `vs[i-w+1..i]` once `i + 1 ≥ w`, nothing before. -/
def movingAvg (w : Nat) (vs : List ℚ) : List (Option ℚ) :=
  (List.range vs.length).map fun i =>
    if w ≤ i + 1 then some ((((vs.drop (i + 1 - w)).take w).sum) / w) else none

/-- The series-building fragment of `handle_worker_finished`: normalise
the timestamps, sort ascending by upload date, compute the moving average
with window `max(1, count // 10)`, and pair each sorted record with its
average cell (the record is the row, the `Option ℚ` the `moving_avg`
column).

On the sort: `df.sort_values('upload_date')` uses pandas' default
`kind='quicksort'`, which pandas documents as *not* stable, so the
program's order among records with equal upload timestamps is an
implementation detail of numpy's sort, not determined by this
repository's code.  The embedding fixes one canonical deterministic sort
by the timestamp key (`List.insertionSort`); only properties that are
insensitive to the order chosen among equal timestamps are claimed about
this definition — properties that depend on the tie order (such as
stability, or idempotence on lists with tied timestamps) are *not*
settled by it. -/
def buildSeries (rs : List Record) : List (Record × Option ℚ) :=
  let sorted := List.insertionSort dateLe (rs.map normalizeRecord)
  let w := max 1 (rs.length / 10)
  sorted.zip (movingAvg w (sorted.map fun r => (r.view_count : ℚ)))

/-! ## Fault-model APIs for the statistics fetcher -/

/-- Fault-free statistics API: every call is answered from `resp`. -/
def okApi (resp : List String → StatsResponse) : Nat → List String → BatchOutcome :=
  fun _ b => BatchOutcome.ok (resp b)

/-- Statistics API whose call number `k0` fails with a non-transport
remote error; every other call is answered from `resp`. -/
def otherApi (resp : List String → StatsResponse) (k0 : Nat) :
    Nat → List String → BatchOutcome :=
  fun k b => if k = k0 then BatchOutcome.err else BatchOutcome.ok (resp b)

/-- Statistics API where every call fails with an SSL error. -/
def sslAlways : Nat → List String → BatchOutcome := fun _ _ => BatchOutcome.ssl

/-! ## Lemmas about the statistics fetcher -/

theorem chunks50_flatten : ∀ l : List String, (chunks50 l).flatten = l := by
  suffices H : ∀ (n : Nat) (l : List String), l.length ≤ n → (chunks50 l).flatten = l by
    exact fun l => H l.length l le_rfl
  intro n
  induction n with
  | zero =>
    intro l hl
    have : l = [] := List.length_eq_zero.mp (Nat.le_zero.mp hl)
    subst this; simp [chunks50]
  | succ n ih =>
    intro l hl
    cases l with
    | nil => simp [chunks50]
    | cons x xs =>
      rw [chunks50]
      simp only [List.flatten_cons]
      rw [ih ((x :: xs).drop 50) (by simp at hl ⊢; omega)]
      exact List.take_append_drop 50 (x :: xs)

theorem chunks50_le : ∀ (l : List String) (b : List String),
    b ∈ chunks50 l → b.length ≤ 50 := by
  suffices H : ∀ (n : Nat) (l : List String), l.length ≤ n →
      ∀ b ∈ chunks50 l, b.length ≤ 50 by
    exact fun l => H l.length l le_rfl
  intro n
  induction n with
  | zero =>
    intro l hl
    have : l = [] := List.length_eq_zero.mp (Nat.le_zero.mp hl)
    subst this; simp [chunks50]
  | succ n ih =>
    intro l hl
    cases l with
    | nil => simp [chunks50]
    | cons x xs =>
      rw [chunks50]
      intro b hb
      rcases List.mem_cons.mp hb with h | h
      · subst h; simp
      · exact ih ((x :: xs).drop 50) (by simp at hl ⊢; omega) b h

theorem statsGo_okApi (resp : List String → StatsResponse) :
    ∀ (bs : List (List String)) (k : Nat) (acc : List Record) (tr : List (List String)),
      statsGo (okApi resp) bs k acc tr =
        (Except.ok (acc ++ (bs.map fun b => parseItems (resp b)).flatten), tr ++ bs) := by
  intro bs
  induction bs with
  | nil => intro k acc tr; simp [statsGo]
  | cons b bs ih =>
    intro k acc tr
    simp only [statsGo, okApi, ih, List.map_cons, List.flatten_cons]
    simp [List.append_assoc]

theorem statsGo_otherApi (resp : List String → StatsResponse) (k0 : Nat) :
    ∀ (bs : List (List String)) (k : Nat) (acc : List Record) (tr : List (List String)),
      statsGo (otherApi resp k0) bs k acc tr =
        (Except.ok (acc ++
          ((if k ≤ k0 then bs.eraseIdx (k0 - k) else bs).map
              fun b => parseItems (resp b)).flatten), tr ++ bs) := by
  intro bs
  induction bs with
  | nil => intro k acc tr; simp [statsGo]
  | cons b bs ih =>
    intro k acc tr
    by_cases hk : k = k0
    · subst hk
      simp only [statsGo, otherApi, if_pos rfl, ih]
      have h1 : ¬ (k + 1 ≤ k) := by omega
      rw [if_neg h1, if_pos (le_refl k)]
      simp [List.eraseIdx]
    · simp only [statsGo, otherApi, if_neg hk, ih]
      rcases Nat.lt_or_ge k k0 with hlt | hge
      · have h1 : k + 1 ≤ k0 := hlt
        rw [if_pos h1, if_pos (Nat.le_of_lt hlt)]
        have h2 : k0 - k = (k0 - (k + 1)) + 1 := by omega
        rw [h2]
        simp [List.eraseIdx]
      · have h0 : ¬ (k ≤ k0) := by omega
        have h1 : ¬ (k + 1 ≤ k0) := by omega
        rw [if_neg h1, if_neg h0]
        simp

/-- **C4.** In `get_videos_statistics`, a non-transport remote error on
one batch neither raises nor poisons the aggregation: for every input id
list, every response table and every faulted call number `k0`, the result
is exactly the concatenated records of all batches except the `k0`-th,
and every batch (including the failed one) is requested exactly once in
input order.  In particular, with two batches of 50 where the second call
fails non-transiently, the result holds exactly the 50 records of the
first batch. -/
theorem C4_non_transport_batch_skip
    (ids : List String) (resp : List String → StatsResponse) (k0 : Nat) :
    get_videos_statistics (otherApi resp k0) ids =
      (Except.ok ((((chunks50 ids).eraseIdx k0).map
          fun b => parseItems (resp b)).flatten),
       chunks50 ids) := by
  unfold get_videos_statistics
  rw [statsGo_otherApi]
  simp

theorem statsRetry_err_ssl
    (api : Nat → List String → BatchOutcome) (b : List String) :
    ∀ (r k : Nat) (e : Exc), (statsRetry api b k r).1 = Except.error e →
      e = Exc.ssl := by
  intro r
  induction r with
  | zero => intro k e h; simp [statsRetry] at h
  | succ r ih =>
    intro k e h
    rw [statsRetry] at h
    cases hc : api k b with
    | ok resp => rw [hc] at h; simp at h
    | err => rw [hc] at h; simp at h
    | ssl =>
      rw [hc] at h
      by_cases hr : r = 0
      · rw [if_pos hr] at h
        simp at h
        exact h.symm
      · rw [if_neg hr] at h
        exact ih (k + 1) e h

theorem statsGo_err_ssl (api : Nat → List String → BatchOutcome) :
    ∀ (bs : List (List String)) (k : Nat) (acc : List Record)
      (tr : List (List String)) (e : Exc),
      (statsGo api bs k acc tr).1 = Except.error e → e = Exc.ssl := by
  intro bs
  induction bs with
  | nil => intro k acc tr e h; simp [statsGo] at h
  | cons b bs ih =>
    intro k acc tr e h
    rw [statsGo] at h
    cases hc : api k b with
    | ok resp => rw [hc] at h; exact ih _ _ _ _ h
    | err => rw [hc] at h; exact ih _ _ _ _ h
    | ssl =>
      rw [hc] at h
      rcases hres : statsRetry api b (k + 1) 3 with ⟨res, k', rtr⟩
      rw [hres] at h
      cases res with
      | error e' =>
        simp at h
        have he := statsRetry_err_ssl api b 3 (k + 1) e' (by rw [hres])
        rw [← h, he]
      | ok recs => exact ih _ _ _ _ h

/-- **C7.** In `get_videos_statistics`: (1) with a fault-free remote, the
requests sent are exactly the consecutive batches of the input id list
and the result is their concatenated records; (2) those batches flatten
back to the input (nothing reordered or dropped) and each has at most 50
ids; (3) after a first SSL failure at call `k`, the *same* batch is
retried up to 3 times (calls `k`, `k+1`, `k+2` of the retry loop), a
success within those retries contributing the batch's records exactly
once; (4) a third failed retry exhausts the budget; and (5) an
always-failing transport makes the whole aggregation abort with the SSL
error after 4 attempts of the first batch. -/
theorem C7_batch_retry_policy :
    (∀ (ids : List String) (resp : List String → StatsResponse),
        get_videos_statistics (okApi resp) ids =
          (Except.ok (((chunks50 ids).map fun b => parseItems (resp b)).flatten),
           chunks50 ids))
    ∧ (∀ l : List String,
        (chunks50 l).flatten = l ∧ ∀ b ∈ chunks50 l, b.length ≤ 50)
    ∧ (∀ (api : Nat → List String → BatchOutcome) (b : List String) (k : Nat)
          (resp : StatsResponse),
        api k b = BatchOutcome.ssl → api (k + 1) b = BatchOutcome.ssl →
        api (k + 2) b = BatchOutcome.ok resp →
        statsRetry api b k 3 = (Except.ok (parseItems resp), k + 3, [b, b, b]))
    ∧ (∀ (api : Nat → List String → BatchOutcome) (b : List String) (k : Nat),
        api k b = BatchOutcome.ssl → api (k + 1) b = BatchOutcome.ssl →
        api (k + 2) b = BatchOutcome.ssl →
        statsRetry api b k 3 = (Except.error Exc.ssl, k + 3, [b, b, b]))
    ∧ (∀ ids : List String, ids ≠ [] →
        get_videos_statistics sslAlways ids =
          (Except.error Exc.ssl,
           [ids.take 50, ids.take 50, ids.take 50, ids.take 50])) := by
  refine ⟨?_, ?_, ?_, ?_, ?_⟩
  · intro ids resp
    unfold get_videos_statistics
    rw [statsGo_okApi]
    simp
  · intro l
    exact ⟨chunks50_flatten l, chunks50_le l⟩
  · intro api b k resp h0 h1 h2
    rw [statsRetry, h0]
    rw [if_neg (by omega)]
    rw [statsRetry, h1]
    rw [if_neg (by omega)]
    rw [statsRetry, h2]
  · intro api b k h0 h1 h2
    rw [statsRetry, h0]
    rw [if_neg (by omega)]
    rw [statsRetry, h1]
    rw [if_neg (by omega)]
    rw [statsRetry, h2]
    rw [if_pos rfl]
  · intro ids hids
    cases ids with
    | nil => exact absurd rfl hids
    | cons x xs =>
      unfold get_videos_statistics
      rw [chunks50]
      rfl

/-- Closed instance of `C7_batch_retry_policy`: a batch whose first
attempt and first two retries fail with SSL but whose third retry
succeeds contributes its records once; three failed retries abort; and an
always-failing transport aborts the aggregation after 4 identical
requests for the first batch. -/
theorem C7_batch_retry_policy_witness :
    statsRetry
        (fun k _ => if k < 2 then BatchOutcome.ssl
                    else BatchOutcome.ok ⟨some []⟩)
        ["a"] 0 3 = (Except.ok [], 3, [["a"], ["a"], ["a"]])
    ∧ statsRetry (fun _ _ => BatchOutcome.ssl) ["a"] 0 3 =
        (Except.error Exc.ssl, 3, [["a"], ["a"], ["a"]])
    ∧ get_videos_statistics sslAlways ["a"] =
        (Except.error Exc.ssl, [["a"], ["a"], ["a"], ["a"]]) := by
  refine ⟨?_, ?_, ?_⟩
  · exact C7_batch_retry_policy.2.2.1 _ ["a"] 0 ⟨some []⟩ rfl rfl rfl
  · exact C7_batch_retry_policy.2.2.2.1 _ ["a"] 0 rfl rfl rfl
  · have h := C7_batch_retry_policy.2.2.2.2 ["a"] (by simp)
    simpa using h

/-- **C10.** Implicit error containment in `get_videos_statistics`: (1)
the only exception the function can propagate, over every remote
behaviour and every input, is the SSL error raised after the per-batch
retries are exhausted; (2) a non-transport error during a retry attempt
is caught and merely ends that batch with zero records; and (3) on empty
input the function returns an empty record list having issued no remote
call at all. -/
theorem C10_stats_error_containment :
    (∀ (api : Nat → List String → BatchOutcome) (ids : List String) (e : Exc),
        (get_videos_statistics api ids).1 = Except.error e → e = Exc.ssl)
    ∧ (∀ (api : Nat → List String → BatchOutcome) (b : List String) (k r : Nat),
        api k b = BatchOutcome.err →
        statsRetry api b k (r + 1) = (Except.ok [], k + 1, [b]))
    ∧ (∀ api : Nat → List String → BatchOutcome,
        get_videos_statistics api [] = (Except.ok [], [])) := by
  refine ⟨?_, ?_, ?_⟩
  · intro api ids e h
    exact statsGo_err_ssl api (chunks50 ids) 0 [] [] e h
  · intro api b k r h
    rw [statsRetry, h]
  · intro api
    unfold get_videos_statistics
    rw [chunks50]
    rfl

/-- Closed instance of `C10_stats_error_containment`: the error coming
out of an all-SSL run is the transport error, a first-retry remote error
yields a skipped batch, and the empty input makes no call. -/
theorem C10_stats_error_containment_witness :
    Exc.ssl = Exc.ssl
    ∧ statsRetry (fun _ _ => BatchOutcome.err) ["a"] 5 3 =
        (Except.ok [], 6, [["a"]])
    ∧ get_videos_statistics sslAlways [] = (Except.ok [], []) := by
  refine ⟨?_, ?_, ?_⟩
  · exact C10_stats_error_containment.1 sslAlways ["a"] Exc.ssl
      (by unfold get_videos_statistics
          rw [chunks50]
          simp [statsGo, sslAlways, statsRetry, chunks50])
  · exact C10_stats_error_containment.2.1 _ ["a"] 5 2 rfl
  · exact C10_stats_error_containment.2.2 sslAlways

/-! ## Lemmas about the series builder -/

def defaultRecord : Record := ⟨"", "", 0, ⟨0, none⟩⟩

/-- The §8 scenario: 3 videos with view counts 10, 20, 30 uploaded on
2024-01-01, -02, -03 (UTC epochs, timezone-annotated as `+00:00`). -/
def scenarioRecords : List Record :=
  [⟨"v1", "t1", 10, ⟨1704067200, some 0⟩⟩,
   ⟨"v2", "t2", 20, ⟨1704153600, some 0⟩⟩,
   ⟨"v3", "t3", 30, ⟨1704240000, some 0⟩⟩]

theorem movingAvg_length (w : Nat) (vs : List ℚ) :
    (movingAvg w vs).length = vs.length := by
  simp [movingAvg]

theorem buildSeries_map_fst (rs : List Record) :
    (buildSeries rs).map Prod.fst =
      List.insertionSort dateLe (rs.map normalizeRecord) := by
  unfold buildSeries
  apply List.map_fst_zip
  rw [movingAvg_length, List.length_map]

theorem buildSeries_length (rs : List Record) :
    (buildSeries rs).length = rs.length := by
  unfold buildSeries
  rw [List.length_zip, movingAvg_length, List.length_map, min_self]
  rw [List.Perm.length_eq (List.perm_insertionSort dateLe (rs.map normalizeRecord))]
  exact List.length_map rs normalizeRecord

theorem sum_take_drop (vs : List ℚ) :
    ∀ (w a : Nat), a + w ≤ vs.length →
      ((vs.drop a).take w).sum = ∑ j in Finset.range w, vs.getD (a + j) 0 := by
  intro w
  induction w with
  | zero => intro a _; simp
  | succ w ih =>
    intro a h
    have ha : a < vs.length := by omega
    rw [List.drop_eq_getElem_cons ha, List.take_succ_cons, List.sum_cons,
      ih (a + 1) (by omega), Finset.sum_range_succ']
    have h0 : vs.getD (a + 0) 0 = vs[a] := by
      rw [Nat.add_zero]; exact List.getD_eq_getElem vs 0 ha
    have hc : ∀ j ∈ Finset.range w, vs.getD (a + (j + 1)) 0 = vs.getD (a + 1 + j) 0 :=
      fun j _ => by rw [show a + (j + 1) = a + 1 + j by omega]
    rw [h0, Finset.sum_congr rfl hc]
    exact add_comm _ _

/-- **C2.** The moving-average column of `buildSeries` with
`w = max(1, count / 10)`: at every sorted position `i ≥ w - 1` it is the
arithmetic mean of the view counts over positions `i-w+1 .. i`, at every
position `i < w - 1` it is absent (`none`, not zero); and on the §8
scenario (3 records, view counts [10, 20, 30], ascending dates) the
window is 1 and the column is `[10, 20, 30]`. -/
theorem C2_moving_average (rs : List Record) (i : Nat)
    (hi : i < (buildSeries rs).length) :
    (max 1 (rs.length / 10) - 1 ≤ i →
      ((buildSeries rs).getD i (defaultRecord, none)).2 =
        some ((∑ j in Finset.Icc (i + 1 - max 1 (rs.length / 10)) i,
            ((((buildSeries rs).map Prod.fst).getD j defaultRecord).view_count : ℚ)) /
          ((max 1 (rs.length / 10) : ℕ) : ℚ)))
    ∧ (i < max 1 (rs.length / 10) - 1 →
      ((buildSeries rs).getD i (defaultRecord, none)).2 = none)
    ∧ (buildSeries scenarioRecords).map Prod.snd = [some 10, some 20, some 30] := by
  set w := max 1 (rs.length / 10) with hw
  have hw1 : 1 ≤ w := le_max_left _ _
  set sorted := List.insertionSort dateLe (rs.map normalizeRecord) with hsorted
  set vs := sorted.map (fun r => (r.view_count : ℚ)) with hvs
  have hlenvs : vs.length = (buildSeries rs).length := by
    rw [hvs, List.length_map, buildSeries_length,
      List.Perm.length_eq (List.perm_insertionSort dateLe (rs.map normalizeRecord)),
      List.length_map]
  have hivs : i < vs.length := by omega
  have hisorted : i < sorted.length := by
    rw [hvs, List.length_map] at hivs; exact hivs
  have hzip : i < (sorted.zip (movingAvg w vs)).length := by
    rw [List.length_zip, movingAvg_length]
    simp only [hvs, List.length_map, min_self]
    exact hisorted
  have hmvlen : i < (movingAvg w vs).length := by
    rw [movingAvg_length]; exact hivs
  have hout : (buildSeries rs).getD i (defaultRecord, none) =
      (sorted[i], (movingAvg w vs)[i]) := by
    conv_lhs => rw [show buildSeries rs = sorted.zip (movingAvg w vs) from rfl]
    rw [List.getD_eq_getElem _ _ hzip]
    exact List.getElem_zip
  have hmv : (movingAvg w vs)[i] =
      if w ≤ i + 1 then
        some ((((vs.drop (i + 1 - w)).take w).sum) / w) else none := by
    simp [movingAvg]
  refine ⟨?_, ?_, ?_⟩
  · intro hge
    have hle : w ≤ i + 1 := by omega
    rw [hout]
    simp only [hmv, if_pos hle]
    have hsum := sum_take_drop vs w (i + 1 - w) (by omega)
    have hclaim : (∑ j in Finset.Icc (i + 1 - w) i,
          ((((buildSeries rs).map Prod.fst).getD j defaultRecord).view_count : ℚ))
        = ∑ j in Finset.range w, vs.getD (i + 1 - w + j) 0 := by
      rw [← Nat.Ico_succ_right, Finset.sum_Ico_eq_sum_range]
      rw [show i.succ - (i + 1 - w) = w by omega]
      refine Finset.sum_congr rfl fun j hj => ?_
      have hjw : j < w := Finset.mem_range.mp hj
      have hjlt : i + 1 - w + j < vs.length := by omega
      have hjs : i + 1 - w + j < sorted.length := by
        rw [hvs, List.length_map] at hjlt; exact hjlt
      have hms : i + 1 - w + j < ((buildSeries rs).map Prod.fst).length := by
        rw [buildSeries_map_fst]; exact hjs
      rw [List.getD_eq_getElem _ _ hms, List.getD_eq_getElem vs 0 hjlt]
      have heq : ((buildSeries rs).map Prod.fst)[i + 1 - w + j]
          = sorted[i + 1 - w + j] := by
        congr 1
        rw [buildSeries_map_fst]
      rw [heq]
      simp [hvs]
    rw [hclaim, hsum]
  · intro hlt
    have hnle : ¬ (w ≤ i + 1) := by omega
    rw [hout]
    simp only [hmv, if_neg hnle]
  · norm_num [buildSeries, scenarioRecords, movingAvg, List.insertionSort,
      List.orderedInsert, normalizeRecord, normalizeDate, dateLe,
      List.range, List.range.loop]

/-- Closed instance of `C2_moving_average` at the §8 scenario with
`i = 0`: window 1, so position 0 already carries an average. -/
theorem C2_moving_average_witness :
    (max 1 (scenarioRecords.length / 10) - 1 ≤ 0 →
      ((buildSeries scenarioRecords).getD 0 (defaultRecord, none)).2 =
        some ((∑ j in Finset.Icc (0 + 1 - max 1 (scenarioRecords.length / 10)) 0,
            ((((buildSeries scenarioRecords).map Prod.fst).getD j
                defaultRecord).view_count : ℚ)) /
          ((max 1 (scenarioRecords.length / 10) : ℕ) : ℚ)))
    ∧ (0 < max 1 (scenarioRecords.length / 10) - 1 →
      ((buildSeries scenarioRecords).getD 0 (defaultRecord, none)).2 = none)
    ∧ (buildSeries scenarioRecords).map Prod.snd = [some 10, some 20, some 30] :=
  C2_moving_average scenarioRecords 0
    (by rw [buildSeries_length]; norm_num [scenarioRecords])

/-! ## Lemmas about the Python string primitives -/

theorem pyPre_iff : ∀ (a s : List Char), pyPre a s = true ↔ ∃ t, s = a ++ t := by
  intro a
  induction a with
  | nil => intro s; simp [pyPre]
  | cons x xs ih =>
    intro s
    cases s with
    | nil => simp [pyPre]
    | cons b bs =>
      rw [pyPre]
      simp only [Bool.and_eq_true, beq_iff_eq]
      constructor
      · rintro ⟨rfl, h⟩
        obtain ⟨t, rfl⟩ := (ih bs).mp h
        exact ⟨t, rfl⟩
      · rintro ⟨t, ht⟩
        rw [List.cons_append] at ht
        injection ht with h1 h2
        exact ⟨h1.symm, (ih bs).mpr ⟨t, h2⟩⟩

theorem pyIn_iff : ∀ (a s : List Char), pyIn a s = true ↔ ∃ u v, s = u ++ a ++ v := by
  intro a s
  induction s with
  | nil =>
    rw [pyIn]
    rw [List.isEmpty_iff]
    constructor
    · rintro rfl
      exact ⟨[], [], rfl⟩
    · rintro ⟨u, v, h⟩
      rcases List.append_eq_nil.mp h.symm with ⟨h1, h2⟩
      exact (List.append_eq_nil.mp h1).2
  | cons c rest ih =>
    rw [pyIn]
    simp only [Bool.or_eq_true]
    constructor
    · rintro (h | h)
      · obtain ⟨t, ht⟩ := (pyPre_iff a (c :: rest)).mp h
        exact ⟨[], t, by simpa using ht⟩
      · obtain ⟨u, v, huv⟩ := ih.mp h
        exact ⟨c :: u, v, by simp [huv]⟩
    · rintro ⟨u, v, huv⟩
      cases u with
      | nil =>
        left
        exact (pyPre_iff a (c :: rest)).mpr ⟨v, by simpa using huv⟩
      | cons d u' =>
        right
        refine ih.mpr ⟨u', v, ?_⟩
        simp only [List.cons_append, List.append_assoc] at huv ⊢
        injection huv with h1 h2

theorem pyPre_sep_eq {sep s : List Char} (h : pyPre sep s = true) :
    s = sep ++ s.drop sep.length := by
  obtain ⟨t, rfl⟩ := (pyPre_iff sep s).mp h
  rw [List.drop_left]

theorem pySplit_ne_nil (sep : List Char) : ∀ s, pySplit sep s ≠ [] := by
  intro s
  cases s with
  | nil => rw [pySplit]; simp
  | cons c rest =>
    rw [pySplit]
    by_cases h : sep ≠ [] ∧ pyPre sep (c :: rest) = true
    · rw [if_pos h]; simp
    · rw [if_neg h]
      cases hps : pySplit sep rest <;> simp

theorem pySplit_not_in (sep : List Char) (_hsep : sep ≠ []) :
    ∀ s, pyIn sep s = false → pySplit sep s = [s] := by
  intro s
  induction s with
  | nil => intro _; rw [pySplit]
  | cons c rest ih =>
    intro h
    rw [pyIn] at h
    rcases Bool.or_eq_false_iff.mp h with ⟨hpre, hrest⟩
    rw [pySplit, if_neg (by simp [hpre]), ih hrest]

theorem pySplit_len2 (sep : List Char) (hsep : sep ≠ []) :
    ∀ s, pyIn sep s = true → 2 ≤ (pySplit sep s).length := by
  intro s
  induction s with
  | nil =>
    intro h
    rw [pyIn, List.isEmpty_iff] at h
    exact absurd h hsep
  | cons c rest ih =>
    intro h
    rw [pySplit]
    by_cases hpre : sep ≠ [] ∧ pyPre sep (c :: rest) = true
    · rw [if_pos hpre]
      have := pySplit_ne_nil sep ((c :: rest).drop sep.length)
      cases hps : pySplit sep ((c :: rest).drop sep.length) with
      | nil => exact absurd hps this
      | cons p ps => simp
    · rw [if_neg hpre]
      have hprefalse : pyPre sep (c :: rest) = false := by
        rcases Bool.eq_false_or_eq_true (pyPre sep (c :: rest)) with ht | hf
        · exact absurd ⟨hsep, ht⟩ hpre
        · exact hf
      rw [pyIn, hprefalse, Bool.false_or] at h
      have h2 := ih h
      cases hps : pySplit sep rest with
      | nil => exact absurd hps (pySplit_ne_nil sep rest)
      | cons p ps =>
        rw [hps] at h2
        simp at h2 ⊢
        omega

theorem getLastD_irrel {α : Type} (l : List α) (h : l ≠ []) (d d' : α) :
    l.getLastD d = l.getLastD d' := by
  cases l with
  | nil => exact absurd rfl h
  | cons x xs => rw [List.getLastD_cons, List.getLastD_cons]

theorem pyLast_pySplit (sep : List Char) (hsep : sep ≠ []) :
    ∀ s, pyIn sep s = true →
      ∃ a, s = a ++ sep ++ pyLast (pySplit sep s) ∧
        pyIn sep (pyLast (pySplit sep s)) = false := by
  suffices H : ∀ (n : Nat) (s : List Char), s.length ≤ n → pyIn sep s = true →
      ∃ a, s = a ++ sep ++ pyLast (pySplit sep s) ∧
        pyIn sep (pyLast (pySplit sep s)) = false by
    exact fun s => H s.length s le_rfl
  intro n
  induction n with
  | zero =>
    intro s hl hin
    have : s = [] := List.length_eq_zero.mp (Nat.le_zero.mp hl)
    subst this
    rw [pyIn, List.isEmpty_iff] at hin
    exact absurd hin hsep
  | succ n ih =>
    intro s hl hin
    cases s with
    | nil =>
      rw [pyIn, List.isEmpty_iff] at hin
      exact absurd hin hsep
    | cons c rest =>
      rw [pySplit]
      by_cases hpre : sep ≠ [] ∧ pyPre sep (c :: rest) = true
      · rw [if_pos hpre]
        have hsplit : c :: rest = sep ++ (c :: rest).drop sep.length :=
          pyPre_sep_eq hpre.2
        have hseplen : 1 ≤ sep.length := by
          cases sep with
          | nil => exact absurd rfl hsep
          | cons y ys => simp
        have hlen' : ((c :: rest).drop sep.length).length ≤ n := by
          simp only [List.length_drop, List.length_cons]
          simp only [List.length_cons] at hl
          omega
        have hlast : pyLast ([] :: pySplit sep ((c :: rest).drop sep.length)) =
            pyLast (pySplit sep ((c :: rest).drop sep.length)) := by
          unfold pyLast
          rw [List.getLastD_cons]
        rw [hlast]
        by_cases hin' : pyIn sep ((c :: rest).drop sep.length) = true
        · obtain ⟨a', ha', hnin⟩ := ih _ hlen' hin'
          refine ⟨sep ++ a', ?_, hnin⟩
          conv_lhs => rw [hsplit, ha']
          simp [List.append_assoc]
        · have hfalse : pyIn sep ((c :: rest).drop sep.length) = false := by
            rcases Bool.eq_false_or_eq_true (pyIn sep ((c :: rest).drop sep.length)) with ht | hf
            · exact absurd ht hin'
            · exact hf
          rw [pySplit_not_in sep hsep _ hfalse]
          refine ⟨[], ?_, ?_⟩
          · simpa [pyLast] using hsplit
          · simpa [pyLast] using hfalse
      · rw [if_neg hpre]
        have hprefalse : pyPre sep (c :: rest) = false := by
          rcases Bool.eq_false_or_eq_true (pyPre sep (c :: rest)) with ht | hf
          · exact absurd ⟨hsep, ht⟩ hpre
          · exact hf
        have hinrest : pyIn sep rest = true := by
          rw [pyIn, hprefalse, Bool.false_or] at hin
          exact hin
        have hlenr : rest.length ≤ n := by
          simp only [List.length_cons] at hl
          omega
        obtain ⟨a', ha', hnin⟩ := ih rest hlenr hinrest
        have h2 := pySplit_len2 sep hsep rest hinrest
        cases hps : pySplit sep rest with
        | nil => exact absurd hps (pySplit_ne_nil sep rest)
        | cons p ps =>
          have hpsne : ps ≠ [] := by
            rw [hps] at h2
            cases ps with
            | nil => simp at h2
            | cons q qs => simp
          have hlast : pyLast ((c :: p) :: ps) = pyLast (p :: ps) := by
            unfold pyLast
            rw [List.getLastD_cons, List.getLastD_cons]
            exact getLastD_irrel ps hpsne _ _
          show ∃ a, c :: rest = a ++ sep ++ pyLast ((c :: p) :: ps) ∧
            pyIn sep (pyLast ((c :: p) :: ps)) = false
          rw [hlast]
          rw [hps] at ha' hnin
          refine ⟨c :: a', ?_, hnin⟩
          rw [List.cons_append, List.cons_append]
          exact congrArg (c :: ·) ha'

theorem pyHead_pySplit_slash : ∀ s : List Char,
    pyHead (pySplit slash s) = s.takeWhile (· ≠ '/') := by
  intro s
  induction s with
  | nil => rw [pySplit]; rfl
  | cons c rest ih =>
    rw [pySplit]
    by_cases hc : c = '/'
    · subst hc
      rw [if_pos ⟨by simp [slash], by simp [slash, pyPre]⟩]
      rw [List.takeWhile_cons]
      simp [pyHead]
    · have hpre : pyPre slash (c :: rest) = false := by
        simp only [slash, pyPre, Bool.and_eq_false_iff, beq_eq_false_iff_ne, ne_eq]
        left
        exact fun h => hc h.symm
      rw [if_neg (by simp [hpre])]
      cases hps : pySplit slash rest with
      | nil => exact absurd hps (pySplit_ne_nil slash rest)
      | cons p ps =>
        rw [List.takeWhile_cons]
        rw [hps] at ih
        simp only [pyHead, List.headD] at ih ⊢
        rw [if_pos (by simp [hc])]
        rw [ih]

/-- **C8.** `extract_channel_id` on URLs containing `/channel/`: the
result does not depend on the remote service at all, zero remote calls
are issued, and the returned id is the path segment (up to the next `/`)
immediately following the (last) occurrence of `/channel/` — this branch
wins even when `/user/`, `/c/` or `/@` also occur, since no hypothesis
excludes them.  A URL matching none of the four shapes fails with the
invalid-URL-format error. -/
theorem C8_channel_url_resolution (yt yt' : ResolverAPI) (url : String) :
    (pyIn sepChannel url.data = true →
      extract_channel_id yt url = extract_channel_id yt' url ∧
      (extract_channel_id yt url).2 = 0 ∧
      ∃ a rest : List Char,
        url.data = a ++ sepChannel ++ rest ∧
        pyIn sepChannel rest = false ∧
        (extract_channel_id yt url).1 =
          Except.ok (String.mk (rest.takeWhile (· ≠ '/'))))
    ∧ ((pyIn sepChannel url.data = false ∧ pyIn sepUser url.data = false ∧
        pyIn sepC url.data = false ∧ pyIn sepAt url.data = false) →
      extract_channel_id yt url = (Except.error ExtractErr.invalidFormat, 0)) := by
  constructor
  · intro h
    have hsep : sepChannel ≠ [] := by simp [sepChannel]
    obtain ⟨a, ha, hnin⟩ := pyLast_pySplit sepChannel hsep url.data h
    refine ⟨?_, ?_, ?_⟩
    · simp only [extract_channel_id, if_pos h]
    · simp only [extract_channel_id, if_pos h]
    · refine ⟨a, pyLast (pySplit sepChannel url.data), ha, hnin, ?_⟩
      simp only [extract_channel_id, if_pos h]
      rw [pyHead_pySplit_slash]
  · rintro ⟨h1, h2, h3, h4⟩
    simp only [extract_channel_id, h1, h2, h3, h4]
    rfl

/-- Closed instance of `C8_channel_url_resolution` at
`https://www.youtube.com/channel/UC123/videos` (channel branch, no remote
call) and `https://www.youtube.com/watch` (no recognised shape). -/
theorem C8_channel_url_resolution_witness :
    (extract_channel_id ⟨fun _ => [], fun _ => []⟩
        "https://www.youtube.com/channel/UC123/videos" =
      extract_channel_id ⟨fun _ => ["x"], fun _ => ["y"]⟩
        "https://www.youtube.com/channel/UC123/videos"
      ∧ (extract_channel_id ⟨fun _ => [], fun _ => []⟩
          "https://www.youtube.com/channel/UC123/videos").2 = 0
      ∧ ∃ a rest : List Char,
          ("https://www.youtube.com/channel/UC123/videos").data =
            a ++ sepChannel ++ rest ∧
          pyIn sepChannel rest = false ∧
          (extract_channel_id ⟨fun _ => [], fun _ => []⟩
              "https://www.youtube.com/channel/UC123/videos").1 =
            Except.ok (String.mk (rest.takeWhile (· ≠ '/'))))
    ∧ extract_channel_id ⟨fun _ => [], fun _ => []⟩
        "https://www.youtube.com/watch" =
      (Except.error ExtractErr.invalidFormat, 0) :=
  ⟨(C8_channel_url_resolution ⟨fun _ => [], fun _ => []⟩
      ⟨fun _ => ["x"], fun _ => ["y"]⟩
      "https://www.youtube.com/channel/UC123/videos").1 (by decide),
   (C8_channel_url_resolution ⟨fun _ => [], fun _ => []⟩
      ⟨fun _ => [], fun _ => []⟩
      "https://www.youtube.com/watch").2
     ⟨by decide, by decide, by decide, by decide⟩⟩

/-! ## Lemmas about pagination -/

theorem card_filter_lt_succ (faults : Finset ℕ) (k : ℕ) :
    (faults.filter (fun j => j < k + 1)).card =
      (faults.filter (fun j => j < k)).card + (if k ∈ faults then 1 else 0) := by
  have hsplit : faults.filter (fun j => j < k + 1)
      = faults.filter (fun j => j < k) ∪ faults.filter (fun j => j = k) := by
    rw [← Finset.filter_or]
    apply Finset.filter_congr
    intro x _
    omega
  rw [hsplit, Finset.card_union_of_disjoint]
  · congr 1
    rw [Finset.filter_eq']
    by_cases hk : k ∈ faults
    · rw [if_pos hk, if_pos hk, Finset.card_singleton]
    · rw [if_neg hk, if_neg hk, Finset.card_empty]
  · refine Finset.disjoint_left.mpr ?_
    intro x hx1 hx2
    simp only [Finset.mem_filter] at hx1 hx2
    omega

theorem card_filter_ge_succ (faults : Finset ℕ) (k : ℕ) :
    (faults.filter (fun j => k ≤ j)).card =
      (faults.filter (fun j => k + 1 ≤ j)).card + (if k ∈ faults then 1 else 0) := by
  have hsplit : faults.filter (fun j => k ≤ j)
      = faults.filter (fun j => k + 1 ≤ j) ∪ faults.filter (fun j => j = k) := by
    rw [← Finset.filter_or]
    apply Finset.filter_congr
    intro x _
    omega
  rw [hsplit, Finset.card_union_of_disjoint]
  · congr 1
    rw [Finset.filter_eq']
    by_cases hk : k ∈ faults
    · rw [if_pos hk, if_pos hk, Finset.card_singleton]
    · rw [if_neg hk, if_neg hk, Finset.card_empty]
  · refine Finset.disjoint_left.mpr ?_
    intro x hx1 hx2
    simp only [Finset.mem_filter] at hx1 hx2
    omega

theorem card_filter_lt_of_mem (faults : Finset ℕ) (k : ℕ) (hk : k ∈ faults) :
    (faults.filter (fun j => j < k)).card + 1 ≤ faults.card := by
  have hsub : faults.filter (fun j => j < k) ⊆ faults.erase k := by
    intro x hx
    simp only [Finset.mem_filter] at hx
    exact Finset.mem_erase.mpr ⟨by omega, hx.1⟩
  have h1 := Finset.card_le_card hsub
  rw [Finset.card_erase_of_mem hk] at h1
  have h2 : 1 ≤ faults.card := Finset.card_pos.mpr ⟨k, hk⟩
  omega

/-- The page returned at offset `s` followed by the remainder of the
playlist from the advanced offset reassembles the remainder from `s`. -/
theorem take_drop_chain (p : List String) (s m : Nat) :
    (p.drop s).take m ++ p.drop (s + ((p.drop s).take m).length) = p.drop s := by
  rw [List.length_take]
  rw [← List.drop_drop]
  rcases le_or_lt (p.drop s).length m with hle | hlt
  · rw [min_eq_right hle, List.take_of_length_le hle, List.drop_eq_nil_of_le le_rfl,
      List.append_nil]
  · rw [min_eq_left (Nat.le_of_lt hlt)]
    exact List.take_append_drop m (p.drop s)

/-- When the server will return no continuation token, the page is the
whole remainder of the playlist. -/
theorem take_full_of_end (p : List String) (s m : Nat)
    (h : ¬ (s + ((p.drop s).take m).length < p.length)) :
    (p.drop s).take m = p.drop s := by
  rw [List.length_take, List.length_drop] at h
  apply List.take_of_length_le
  rw [List.length_drop]
  omega

/-- In the recursion of `get_last_n_video_ids`, the inner item loop never
hits its early break before exhausting the page (the page size request
already caps the batch), so it appends the whole page. -/
theorem appendUpTo_eq_append (n : Nat) :
    ∀ (its ids : List String), ids.length < n → its.length ≤ n - ids.length →
      appendUpTo n ids its = ids ++ its := by
  intro its
  induction its with
  | nil => intro ids _ _; rw [appendUpTo, List.append_nil]
  | cons x xs ih =>
    intro ids hlt hle
    rw [appendUpTo]
    simp only [List.length_cons] at hle
    by_cases hfull : (ids ++ [x]).length = n
    · rw [if_pos hfull]
      have hxs : xs = [] := by
        rw [List.length_append, List.length_singleton] at hfull
        have hz : xs.length = 0 := by omega
        exact List.length_eq_zero.mp hz
      rw [hxs]
    · rw [if_neg hfull]
      rw [List.length_append, List.length_singleton] at hfull
      rw [ih (ids ++ [x]) (by simp; omega) (by simp; omega)]
      simp

/-- Fault-tolerance invariant of `get_all_video_ids`'s loop over the
well-behaved playlist server: with at most 2 SSL faults in the whole
schedule, the loop — whose retry budget of 3 is shared across all pages
and never reset — completes and returns the accumulated ids followed by
the remainder of the playlist, no page duplicated or skipped. -/
theorem getAllGo_faultApi (p : List String) (faults : Finset ℕ)
    (hcard : faults.card ≤ 2) :
    ∀ (fuel : Nat) (tok : Option Nat) (ids : List String) (k : Nat) (tr : List PageReq),
      p.length - tok.getD 0 + (faults.filter (fun j => k ≤ j)).card < fuel →
      (getAllGo (faultApi p faults) fuel ids tok
          (3 - (faults.filter (fun j => j < k)).card) k tr).1
        = some (Except.ok (ids ++ p.drop (tok.getD 0))) := by
  intro fuel
  induction fuel with
  | zero => intro tok ids k tr h; omega
  | succ fuel ih =>
    intro tok ids k tr hfuel
    by_cases hk : k ∈ faults
    · have hApi : faultApi p faults k ⟨50, tok⟩ = PageOutcome.ssl := by
        simp [faultApi, hk]
      have hcb := card_filter_lt_of_mem faults k hk
      have hlt := card_filter_lt_succ faults k
      have hge := card_filter_ge_succ faults k
      rw [if_pos hk] at hlt hge
      simp only [getAllGo, hApi]
      rw [if_pos (show 0 < 3 - (faults.filter (fun j => j < k)).card - 1 by omega)]
      rw [show (3 : Nat) - (faults.filter (fun j => j < k)).card - 1
            = 3 - (faults.filter (fun j => j < k + 1)).card by omega]
      apply ih
      omega
    · have hApi : faultApi p faults k ⟨50, tok⟩
          = PageOutcome.ok (playlistServer p ⟨50, tok⟩) := by
        simp [faultApi, hk]
      have hlt := card_filter_lt_succ faults k
      have hge := card_filter_ge_succ faults k
      rw [if_neg hk] at hlt hge
      have hilen : ((p.drop (tok.getD 0)).take 50).length
          = min 50 (p.length - tok.getD 0) := by
        rw [List.length_take, List.length_drop]
      by_cases hmore :
          tok.getD 0 + ((p.drop (tok.getD 0)).take 50).length < p.length
      · have hprog : 1 ≤ ((p.drop (tok.getD 0)).take 50).length := by
          rw [hilen] at hmore ⊢
          omega
        simp only [getAllGo, hApi, playlistServer, hmore, if_true]
        rw [show (3 : Nat) - (faults.filter (fun j => j < k)).card
              = 3 - (faults.filter (fun j => j < k + 1)).card by omega]
        have hfuel' : p.length -
              (some (tok.getD 0 + ((p.drop (tok.getD 0)).take 50).length) :
                Option Nat).getD 0
            + (faults.filter (fun j => k + 1 ≤ j)).card < fuel := by
          have hgd : (some (tok.getD 0 + ((p.drop (tok.getD 0)).take 50).length) :
              Option Nat).getD 0
              = tok.getD 0 + ((p.drop (tok.getD 0)).take 50).length := rfl
          rw [hgd]
          omega
        rw [ih _ _ (k + 1) _ hfuel']
        have hgd : (some (tok.getD 0 + ((p.drop (tok.getD 0)).take 50).length) :
            Option Nat).getD 0
            = tok.getD 0 + ((p.drop (tok.getD 0)).take 50).length := rfl
        rw [hgd, List.append_assoc, take_drop_chain]
      · simp only [getAllGo, hApi, playlistServer, hmore, if_false]
        rw [take_full_of_end p _ _ hmore]

/-- A full page of size `min(n - len, 50)` followed by the next
`n - (len + pageLen)` items from the advanced offset reassembles the
`n - len` items from the original offset. -/
theorem nmode_take_chain (p : List String) (s len n : Nat)
    (h : s + ((p.drop s).take (min (n - len) 50)).length < p.length)
    (hlen : len < n) :
    (p.drop s).take (min (n - len) 50) ++
      (p.drop (s + ((p.drop s).take (min (n - len) 50)).length)).take
        (n - (len + ((p.drop s).take (min (n - len) 50)).length))
      = (p.drop s).take (n - len) := by
  have hilen : ((p.drop s).take (min (n - len) 50)).length
      = min (min (n - len) 50) (p.length - s) := by
    rw [List.length_take, List.length_drop]
  have hfull : ((p.drop s).take (min (n - len) 50)).length = min (n - len) 50 := by
    rw [hilen] at h ⊢
    omega
  rw [hfull]
  have hdd : p.drop (s + min (n - len) 50) = (p.drop s).drop (min (n - len) 50) := by
    rw [List.drop_drop, Nat.add_comm]
  rw [hdd]
  generalize (p.drop s) = l
  generalize hm : min (n - len) 50 = m
  have hmle : m ≤ n - len := by omega
  rw [show n - len = m + (n - (len + m)) by omega]
  rw [List.take_add]

/-- Fault-tolerance invariant of `get_last_n_video_ids`'s loop: with at
most 2 SSL faults in the whole schedule, the loop completes and returns
the first `n - ids.length` remaining playlist entries appended to the
accumulator. -/
theorem getLastNGo_faultApi (p : List String) (n : Nat) (faults : Finset ℕ)
    (hcard : faults.card ≤ 2) :
    ∀ (fuel : Nat) (tok : Option Nat) (ids : List String) (k : Nat) (tr : List PageReq),
      ids.length ≤ n →
      n - ids.length + (faults.filter (fun j => k ≤ j)).card < fuel →
      (getLastNGo (faultApi p faults) n fuel ids tok
          (3 - (faults.filter (fun j => j < k)).card) k tr).1
        = some (Except.ok (ids ++ (p.drop (tok.getD 0)).take (n - ids.length))) := by
  intro fuel
  induction fuel with
  | zero => intro tok ids k tr hle h; omega
  | succ fuel ih =>
    intro tok ids k tr hle hfuel
    by_cases hguard : ids.length < n
    · by_cases hk : k ∈ faults
      · have hApi : faultApi p faults k ⟨min (n - ids.length) 50, tok⟩
            = PageOutcome.ssl := by
          simp [faultApi, hk]
        have hcb := card_filter_lt_of_mem faults k hk
        have hlt := card_filter_lt_succ faults k
        have hge := card_filter_ge_succ faults k
        rw [if_pos hk] at hlt hge
        simp only [getLastNGo, hguard, if_true, hApi]
        rw [if_pos (show 0 < 3 - (faults.filter (fun j => j < k)).card - 1 by omega)]
        rw [show (3 : Nat) - (faults.filter (fun j => j < k)).card - 1
              = 3 - (faults.filter (fun j => j < k + 1)).card by omega]
        apply ih _ _ _ _ hle
        omega
      · have hApi : faultApi p faults k ⟨min (n - ids.length) 50, tok⟩
            = PageOutcome.ok (playlistServer p ⟨min (n - ids.length) 50, tok⟩) := by
          simp [faultApi, hk]
        have hlt := card_filter_lt_succ faults k
        have hge := card_filter_ge_succ faults k
        rw [if_neg hk] at hlt hge
        have hilen : ((p.drop (tok.getD 0)).take (min (n - ids.length) 50)).length
            = min (min (n - ids.length) 50) (p.length - tok.getD 0) := by
          rw [List.length_take, List.length_drop]
        have happ : appendUpTo n ids
            ((p.drop (tok.getD 0)).take (min (n - ids.length) 50))
            = ids ++ (p.drop (tok.getD 0)).take (min (n - ids.length) 50) := by
          apply appendUpTo_eq_append n _ ids hguard
          rw [hilen]
          omega
        by_cases hmore : tok.getD 0 +
            ((p.drop (tok.getD 0)).take (min (n - ids.length) 50)).length < p.length
        · have hfullpage :
              ((p.drop (tok.getD 0)).take (min (n - ids.length) 50)).length
                = min (n - ids.length) 50 := by
            rw [hilen] at hmore ⊢
            omega
          have hprog : 1 ≤ ((p.drop (tok.getD 0)).take (min (n - ids.length) 50)).length := by
            rw [hfullpage]
            omega
          simp only [getLastNGo, hguard, if_true, hApi, playlistServer, hmore, happ]
          rw [show (3 : Nat) - (faults.filter (fun j => j < k)).card
                = 3 - (faults.filter (fun j => j < k + 1)).card by omega]
          have hlen' : (ids ++ (p.drop (tok.getD 0)).take (min (n - ids.length) 50)).length
              = ids.length + ((p.drop (tok.getD 0)).take (min (n - ids.length) 50)).length :=
            List.length_append _ _
          have hle' : (ids ++ (p.drop (tok.getD 0)).take (min (n - ids.length) 50)).length ≤ n := by
            rw [hlen', hfullpage]
            omega
          have hfuel' : n -
              (ids ++ (p.drop (tok.getD 0)).take (min (n - ids.length) 50)).length
              + (faults.filter (fun j => k + 1 ≤ j)).card < fuel := by
            rw [hlen']
            omega
          rw [ih _ _ (k + 1) _ hle' hfuel']
          have hgd : (some (tok.getD 0 +
              ((p.drop (tok.getD 0)).take (min (n - ids.length) 50)).length) :
              Option Nat).getD 0
              = tok.getD 0 +
                ((p.drop (tok.getD 0)).take (min (n - ids.length) 50)).length := rfl
          rw [hgd, hlen', List.append_assoc]
          rw [nmode_take_chain p (tok.getD 0) ids.length n hmore hguard]
        · simp only [getLastNGo, hguard, if_true, hApi, playlistServer, hmore, if_false, happ]
          rw [take_full_of_end p _ _ hmore]
          have hrem : (p.drop (tok.getD 0)).length ≤ n - ids.length := by
            rw [List.length_drop]
            rw [hilen] at hmore
            omega
          rw [List.take_of_length_le hrem]
    · simp only [getLastNGo, hguard, if_false]
      rw [show n - ids.length = 0 by omega]
      rw [List.take_zero, List.append_nil]

/-- Fault-free run of `get_all_video_ids`'s loop: the result is the whole
remainder of the playlist and the number of page requests is exactly the
number of pages — one request per up-to-50-item page, a single request
for an empty playlist, and never more. -/
theorem getAllGo_pure (p : List String) :
    ∀ (fuel : Nat) (tok : Option Nat) (ids : List String) (retries k : Nat)
      (tr : List PageReq),
      p.length - tok.getD 0 < fuel →
      (getAllGo (faultApi p ∅) fuel ids tok retries k tr).1
          = some (Except.ok (ids ++ p.drop (tok.getD 0)))
      ∧ (getAllGo (faultApi p ∅) fuel ids tok retries k tr).2.length
          = tr.length + max 1 ((p.length - tok.getD 0 + 49) / 50) := by
  intro fuel
  induction fuel with
  | zero => intro tok ids retries k tr h; omega
  | succ fuel ih =>
    intro tok ids retries k tr hfuel
    have hApi : faultApi p ∅ k ⟨50, tok⟩
        = PageOutcome.ok (playlistServer p ⟨50, tok⟩) := by
      simp [faultApi]
    have hilen : ((p.drop (tok.getD 0)).take 50).length
        = min 50 (p.length - tok.getD 0) := by
      rw [List.length_take, List.length_drop]
    by_cases hmore :
        tok.getD 0 + ((p.drop (tok.getD 0)).take 50).length < p.length
    · have hrem : 50 < p.length - tok.getD 0 := by
        rw [hilen] at hmore
        omega
      have hfifty : ((p.drop (tok.getD 0)).take 50).length = 50 := by
        rw [hilen]
        omega
      simp only [getAllGo, hApi, playlistServer, hmore, if_true]
      have hgd : (some (tok.getD 0 + ((p.drop (tok.getD 0)).take 50).length) :
          Option Nat).getD 0
          = tok.getD 0 + ((p.drop (tok.getD 0)).take 50).length := rfl
      have hfuel' : p.length -
          (some (tok.getD 0 + ((p.drop (tok.getD 0)).take 50).length) :
            Option Nat).getD 0 < fuel := by
        rw [hgd, hfifty]
        omega
      obtain ⟨ihv, iht⟩ := ih
        (some (tok.getD 0 + ((p.drop (tok.getD 0)).take 50).length))
        (ids ++ (p.drop (tok.getD 0)).take 50) retries (k + 1)
        (tr ++ [⟨50, tok⟩]) hfuel'
      constructor
      · rw [ihv, hgd, List.append_assoc, take_drop_chain]
      · rw [iht, hgd, hfifty, List.length_append, List.length_singleton]
        have h1 : p.length - tok.getD 0 = (p.length - (tok.getD 0 + 50)) + 50 := by
          omega
        omega
    · simp only [getAllGo, hApi, playlistServer, hmore, if_false]
      constructor
      · rw [take_full_of_end p _ _ hmore]
      · rw [List.length_append, List.length_singleton]
        rw [hilen] at hmore
        omega

/-- Fault-free run of `get_last_n_video_ids`'s loop: every page request,
present and future, asks for exactly `min(n - collected, 50)` items —
where `collected` (the ids gathered so far) always equals the offset in
the continuation token it sends. -/
theorem getLastNGo_pure_reqs (p : List String) (n : Nat) :
    ∀ (fuel : Nat) (tok : Option Nat) (ids : List String) (retries k : Nat)
      (tr : List PageReq),
      ids.length = tok.getD 0 →
      (∀ req ∈ tr, req.maxResults = min (n - req.pageToken.getD 0) 50) →
      ∀ req ∈ (getLastNGo (faultApi p ∅) n fuel ids tok retries k tr).2,
        req.maxResults = min (n - req.pageToken.getD 0) 50 := by
  intro fuel
  induction fuel with
  | zero =>
    intro tok ids retries k tr _ htr
    simp only [getLastNGo]
    exact htr
  | succ fuel ih =>
    intro tok ids retries k tr hinv htr
    by_cases hguard : ids.length < n
    · have hApi : faultApi p ∅ k ⟨min (n - ids.length) 50, tok⟩
          = PageOutcome.ok (playlistServer p ⟨min (n - ids.length) 50, tok⟩) := by
        simp [faultApi]
      have hilen : ((p.drop (tok.getD 0)).take (min (n - ids.length) 50)).length
          = min (min (n - ids.length) 50) (p.length - tok.getD 0) := by
        rw [List.length_take, List.length_drop]
      have happ : appendUpTo n ids
          ((p.drop (tok.getD 0)).take (min (n - ids.length) 50))
          = ids ++ (p.drop (tok.getD 0)).take (min (n - ids.length) 50) := by
        apply appendUpTo_eq_append n _ ids hguard
        rw [hilen]
        omega
      have hreq0 : ∀ req ∈ tr ++ [(⟨min (n - ids.length) 50, tok⟩ : PageReq)],
          req.maxResults = min (n - req.pageToken.getD 0) 50 := by
        intro req hreq
        rcases List.mem_append.mp hreq with h | h
        · exact htr req h
        · rcases List.mem_singleton.mp h with rfl
          rw [hinv]
      by_cases hmore : tok.getD 0 +
          ((p.drop (tok.getD 0)).take (min (n - ids.length) 50)).length < p.length
      · simp only [getLastNGo, hguard, if_true, hApi, playlistServer, hmore, happ]
        apply ih
        · rw [List.length_append, hinv]
          rfl
        · exact hreq0
      · simp only [getLastNGo, hguard, if_true, hApi, playlistServer, hmore, if_false, happ]
        exact hreq0
    · simp only [getLastNGo, hguard, if_false]
      exact htr

/-- **C6.** For every playlist of size M, `get_all_video_ids` against the
well-behaved (fault-free) server returns exactly the M ids in API order —
never more — and issues exactly one request per page (`max 1 ⌈M/50⌉`
requests), i.e. the loop stops exactly when a response carries no
continuation token (or no items). -/
theorem C6_collect_all_ids (p : List String) (fuel : Nat) (hfuel : p.length < fuel) :
    (get_all_video_ids (faultApi p ∅) fuel).1 = some (Except.ok p)
    ∧ (get_all_video_ids (faultApi p ∅) fuel).2.length
        = max 1 ((p.length + 49) / 50) := by
  have h := getAllGo_pure p fuel none [] 3 0 [] (by simpa using hfuel)
  unfold get_all_video_ids
  constructor
  · rw [h.1]
    simp
  · rw [h.2]
    simp

/-- Closed instance of `C6_collect_all_ids`: a 3-video playlist is fully
collected in a single page request. -/
theorem C6_collect_all_ids_witness :
    (get_all_video_ids (faultApi ["a", "b", "c"] ∅) 5).1 =
      some (Except.ok ["a", "b", "c"])
    ∧ (get_all_video_ids (faultApi ["a", "b", "c"] ∅) 5).2.length =
      max 1 (((["a", "b", "c"] : List String).length + 49) / 50) :=
  C6_collect_all_ids ["a", "b", "c"] 5 (by decide)

/-- **C5.** For every playlist of size M and positive N,
`get_last_n_video_ids` against the well-behaved server returns exactly
the first N ids when N ≤ M and exactly the M ids when N > M (i.e.
`p.take n`, whose length is `min N M`), and every page request asks for
exactly `min(remaining, 50)` items, where `remaining` is N minus the
number of ids collected before that request (the offset in its token). -/
theorem C5_collect_n_ids (p : List String) (n fuel : Nat) (_hn : 0 < n)
    (hfuel : n < fuel) :
    (get_last_n_video_ids (faultApi p ∅) n fuel).1 = some (Except.ok (p.take n))
    ∧ (p.take n).length = min n p.length
    ∧ ∀ req ∈ (get_last_n_video_ids (faultApi p ∅) n fuel).2,
        req.maxResults = min (n - req.pageToken.getD 0) 50 := by
  refine ⟨?_, List.length_take n p, ?_⟩
  · have h := getLastNGo_faultApi p n ∅ (by simp) fuel none [] 0 []
      (by simp) (by simpa using hfuel)
    unfold get_last_n_video_ids
    simpa using h
  · exact getLastNGo_pure_reqs p n fuel none [] 3 0 [] (by simp) (by simp)

/-- Closed instance of `C5_collect_n_ids` with N = 2 < M = 3. -/
theorem C5_collect_n_ids_witness :
    (get_last_n_video_ids (faultApi ["a", "b", "c"] ∅) 2 5).1 =
      some (Except.ok ((["a", "b", "c"] : List String).take 2))
    ∧ ((["a", "b", "c"] : List String).take 2).length =
        min 2 (["a", "b", "c"] : List String).length
    ∧ ∀ req ∈ (get_last_n_video_ids (faultApi ["a", "b", "c"] ∅) 2 5).2,
        req.maxResults = min (2 - req.pageToken.getD 0) 50 :=
  C5_collect_n_ids ["a", "b", "c"] 2 5 (by decide) (by decide)

/-- **C1 counterexample.** The claim promises up to 3 retries of the same
page request before the collection may fail.  On the code, the retry
budget is initialised once (`retries = 3` before the loop) and the third
SSL error raises: with a playlist of 2 ids and SSL faults on calls 0, 1
and 2 only, the whole collection fails with the transport error after
only two retries — even though the fourth attempt of that very first
page (call 3, identical request) would have succeeded and, under the
claimed policy, the collection would have completed. -/
theorem C1_counterexample :
    get_all_video_ids (faultApi ["a", "b"] {0, 1, 2}) 10 =
      (some (Except.error Exc.ssl),
       [⟨50, none⟩, ⟨50, none⟩, ⟨50, none⟩])
    ∧ faultApi ["a", "b"] {0, 1, 2} 3 ⟨50, none⟩ =
        PageOutcome.ok ⟨some ["a", "b"], none⟩ := by
  constructor
  · rfl
  · rfl

/-- **C1 (amended).** During pagination (both modes), a transient SSL
error causes the same page request to be repeated with the same
continuation token, but the retry budget of 3 is shared across the whole
collection and decremented on every SSL error, the 3rd SSL error overall
aborting the collection (so at most 2 retried errors in total): (1)/(2)
with at most 2 SSL faults anywhere in the schedule, collection succeeds
with exactly the expected ids, no page duplicated or skipped; (3) three
consecutive SSL errors abort with the transport error regardless of the
playlist; (4) concretely, a 51-id playlist with one fault on call 1 is
retried with the same token `50` and collected exactly once. -/
theorem C1_amended_retry_budget :
    (∀ (p : List String) (faults : Finset ℕ) (fuel : Nat),
        faults.card ≤ 2 → p.length + faults.card < fuel →
        (get_all_video_ids (faultApi p faults) fuel).1 = some (Except.ok p))
    ∧ (∀ (p : List String) (n : Nat) (faults : Finset ℕ) (fuel : Nat),
        faults.card ≤ 2 → n + faults.card < fuel →
        (get_last_n_video_ids (faultApi p faults) n fuel).1 =
          some (Except.ok (p.take n)))
    ∧ (∀ (api : Nat → PageReq → PageOutcome) (fuel : Nat),
        api 0 ⟨50, none⟩ = PageOutcome.ssl →
        api 1 ⟨50, none⟩ = PageOutcome.ssl →
        api 2 ⟨50, none⟩ = PageOutcome.ssl →
        (get_all_video_ids api (fuel + 3)).1 = some (Except.error Exc.ssl))
    ∧ get_all_video_ids (faultApi (List.replicate 51 "v") {1}) 10 =
        (some (Except.ok (List.replicate 51 "v")),
         [⟨50, none⟩, ⟨50, some 50⟩, ⟨50, some 50⟩]) := by
  refine ⟨?_, ?_, ?_, ?_⟩
  · intro p faults fuel hcard hfuel
    have hlt0 : faults.filter (fun j => j < 0) = ∅ := by
      apply Finset.filter_false_of_mem
      intro x _
      omega
    have hge0 : faults.filter (fun j => 0 ≤ j) = faults := by
      apply Finset.filter_true_of_mem
      intro x _
      omega
    have h := getAllGo_faultApi p faults hcard fuel none [] 0 []
      (by rw [hge0]; simpa using hfuel)
    rw [hlt0] at h
    simp only [Finset.card_empty, Nat.sub_zero] at h
    unfold get_all_video_ids
    simpa using h
  · intro p n faults fuel hcard hfuel
    have hlt0 : faults.filter (fun j => j < 0) = ∅ := by
      apply Finset.filter_false_of_mem
      intro x _
      omega
    have hge0 : faults.filter (fun j => 0 ≤ j) = faults := by
      apply Finset.filter_true_of_mem
      intro x _
      omega
    have h := getLastNGo_faultApi p n faults hcard fuel none [] 0 []
      (by simp) (by rw [hge0]; simpa using hfuel)
    rw [hlt0] at h
    simp only [Finset.card_empty, Nat.sub_zero] at h
    unfold get_last_n_video_ids
    simpa using h
  · intro api fuel h0 h1 h2
    unfold get_all_video_ids
    rw [show fuel + 3 = (fuel + 2) + 1 from rfl]
    simp [getAllGo, h0, h1, h2]
  · rfl

/-- Closed instance of `C1_amended_retry_budget`: a one-fault schedule
still collects the playlist, N-mode likewise, and three straight SSL
errors abort. -/
theorem C1_amended_retry_budget_witness :
    (get_all_video_ids (faultApi ["a"] {0}) 5).1 = some (Except.ok ["a"])
    ∧ (get_last_n_video_ids (faultApi ["a", "b"] {0}) 1 5).1 =
        some (Except.ok ((["a", "b"] : List String).take 1))
    ∧ (get_all_video_ids (fun _ _ => PageOutcome.ssl) 3).1 =
        some (Except.error Exc.ssl) :=
  ⟨C1_amended_retry_budget.1 ["a"] {0} 5 (by decide) (by decide),
   C1_amended_retry_budget.2.1 ["a", "b"] 1 {0} 5 (by decide) (by decide),
   C1_amended_retry_budget.2.2.1 (fun _ _ => PageOutcome.ssl) 0 rfl rfl rfl⟩

end YTDash
